import Mathlib

/-!
# Verification of the MLATS resume-analysis engine

Shallow embedding of the scoring and extraction code of the MLATS
repository (`ats_components.py`, `app.py`) together with proofs of the
behavioural claims about it.

Conventions:
* Python strings are embedded as `List Char`; Python floats occurring in
  the scoring arithmetic are embedded as `ℚ` (all constants in the code
  are decimal literals, so the arithmetic is exact over `ℚ`).
* Extraction functions that depend on an external ML model
  (`SemanticMatcher`) are abstracted at their output boundary: the
  scorers take the extracted data (entry texts, matched/required skill
  counts) as arguments, exactly as the Python scorers receive them.
-/

namespace MLATS

/-- Python `str.isspace`-style whitespace class, i.e. the characters
matched by the regex class `\s` (space, tab, newline, CR, FF, VT). -/
def isPySpace (c : Char) : Bool :=
  c = ' ' || c = '\t' || c = '\n' || c = '\r' || c = '\x0b' || c = '\x0c'

/-- A regex word character `\w` (ASCII model): letter, digit or underscore. -/
def isWordChar (c : Char) : Bool :=
  ('a' ≤ c && c ≤ 'z') || ('A' ≤ c && c ≤ 'Z') || ('0' ≤ c && c ≤ '9') || c = '_'

/-- ASCII letter. -/
def isAsciiAlpha (c : Char) : Bool :=
  ('a' ≤ c && c ≤ 'z') || ('A' ≤ c && c ≤ 'Z')

/-- ASCII digit. -/
def isAsciiDigit (c : Char) : Bool :=
  '0' ≤ c && c ≤ '9'

/-- Python `str.lower` on a single ASCII character. -/
def pyLower (c : Char) : Char :=
  if 'A' ≤ c && c ≤ 'Z' then Char.ofNat (c.toNat + 32) else c

/-- Python `str.lower` on a string. -/
def lowerStr (s : List Char) : List Char := s.map pyLower

/-- Python `str.strip()`: drop leading and trailing whitespace. -/
def pyStrip (s : List Char) : List Char :=
  ((s.dropWhile isPySpace).reverse.dropWhile isPySpace).reverse

/-- Boolean list-prefix test (`listPrefixOf p l` iff `p` is a prefix of `l`). -/
def listPrefixOf : List Char → List Char → Bool
  | [], _ => true
  | _ :: _, [] => false
  | a :: as, b :: bs => a == b && listPrefixOf as bs

/-- Python `sub in s` substring test on embedded strings. -/
def strContains (s sub : List Char) : Bool :=
  match s with
  | [] => sub.isEmpty
  | _ :: t => listPrefixOf sub s || strContains t sub

/-- Python `' '.join(parts)`. -/
def joinSpace : List (List Char) → List Char
  | [] => []
  | [p] => p
  | p :: ps => p ++ ' ' :: joinSpace ps

/-- Python `'\n'.join(parts)`. -/
def joinNl : List (List Char) → List Char
  | [] => []
  | [p] => p
  | p :: ps => p ++ '\n' :: joinNl ps

/-!
## Section scorers (`ATSScorer` in `ats_components.py`)

Each scorer receives the extracted data exactly in the shape the Python
function computes it from the resume text (lists of entry texts, the
job-description skill list, contact-presence flags) and returns the
rational score the Python arithmetic produces.
-/

/-- `ATSScorer.score_header`: flat points for the presence of each
contact field, capped at 100. -/
def score_header (hasEmail hasPhone hasLinkedin hasGithub : Bool) : ℚ :=
  let s : ℚ :=
    (if hasEmail then 40 else 0) + (if hasPhone then 30 else 0) +
    (if hasLinkedin then 15 else 0) + (if hasGithub then 15 else 0)
  min s 100

/-- The four-band piecewise-linear curve applied to the skills match
ratio inside `ATSScorer.score_skills`. -/
def skillsBand (r : ℚ) : ℚ :=
  if r ≥ 80/100 then 85 + (r - 80/100) * 75
  else if r ≥ 60/100 then 70 + (r - 60/100) * 75
  else if r ≥ 40/100 then 50 + (r - 40/100) * 100
  else r * 125

/-- `ATSScorer.score_skills`, score component: `matchedCount` is
`len(matched)` from `find_matching_skills` and `requiredCount` is
`len(required_skills)`; the Python code returns `min(score, 100.0)`,
with `score = 50.0` when the required list is empty. -/
def score_skills (matchedCount requiredCount : ℕ) : ℚ :=
  if requiredCount = 0 then min 50 100
  else min (skillsBand ((matchedCount : ℚ) / (requiredCount : ℚ))) 100

/-- The keyword-matching component (`keyword_score`, up to 25 points)
of `ATSScorer.score_experience`; `expText` is the lowercased joined
experience text. -/
def expKeywordScore (expText : List Char) (jobSkills : List (List Char)) : ℚ :=
  if jobSkills.isEmpty then 20
  else
    let matchedCount := (jobSkills.filter
      (fun s => strContains expText (lowerStr s))).length
    let p : ℚ :=
      if jobSkills.length > 0 then
        (matchedCount : ℚ) / (jobSkills.length : ℚ) else 0
    min (if p ≥ 30/100 then 20 + (p - 30/100) * 17
         else if p ≥ 15/100 then 15 + (p - 15/100) * 33
         else p * 100) 25

/-- The structural-quality component (`quality_score`, up to 15 points)
of `ATSScorer.score_experience`. -/
def expQualityScore (expTexts : List (List Char)) : ℚ :=
  if expTexts.length ≥ 2 then
    let atsCount := (expTexts.filter
      (fun t => t.contains '—' || t.contains '–')).length
    if atsCount ≥ 2 then 15 else if atsCount ≥ 1 then 12 else 8
  else if expTexts.length = 1 then 10 else 0

/-- `ATSScorer.score_experience`: `expTexts` is the list of `'text'`
fields produced by `extract_experience`, `jobSkills` the list produced
by `extract_skills(job_desc)`. -/
def score_experience (expTexts jobSkills : List (List Char)) : ℚ :=
  if expTexts.isEmpty then 0
  else
    min ((if expTexts.length ≥ 1 then (60:ℚ) else 0) +
      expKeywordScore (lowerStr (joinSpace expTexts)) jobSkills +
      expQualityScore expTexts) 100

/-- The `tech_indicators` list of `ATSScorer.score_projects`. -/
def tech_indicators : List (List Char) :=
  ["python".data, "machine learning".data, "pytorch".data, "tensorflow".data,
   "java".data, "javascript".data, "react".data, "node".data, "sql".data,
   "mongodb".data, "docker".data, "aws".data, "azure".data, "git".data,
   "github".data, "api".data, "flask".data, "django".data, "pandas".data,
   "numpy".data, "matplotlib".data, "tableau".data, "scikit-learn".data,
   "opencv".data, "nltk".data]

/-- `ATSScorer.score_projects`: `projTexts` is the list of `'text'`
fields produced by `extract_projects`. -/
def score_projects (projTexts : List (List Char)) : ℚ :=
  if projTexts.isEmpty then 0
  else
    let projText := lowerStr (joinSpace projTexts)
    let base : ℚ := if projTexts.length ≥ 1 then 65 else 0
    let techCount := (tech_indicators.filter
      (fun t => strContains projText t)).length
    let tech : ℚ :=
      if techCount ≥ 5 then 20 else if techCount ≥ 3 then 15
      else if techCount ≥ 1 then 10 else 5
    let quality : ℚ :=
      if projTexts.length ≥ 2 then
        if projTexts.any (fun p => p.contains '(' && p.contains ')')
        then 15 else 10
      else if projTexts.length = 1 then 8 else 0
    min (base + tech + quality) 100

/-- `ATSScorer.score_education`: `eduTexts` is the list of `'text'`
fields produced by `extract_education`. -/
def score_education (eduTexts : List (List Char)) : ℚ :=
  if eduTexts.isEmpty then 0
  else
    let eduText := lowerStr (joinSpace eduTexts)
    let base : ℚ := 70
    let degree : ℚ :=
      if ["phd".data, "doctorate".data, "ph.d".data].any
          (fun k => strContains eduText k) then 20
      else if ["master".data, "msc".data, "mba".data, "m.tech".data,
               "mtech".data].any (fun k => strContains eduText k) then 18
      else if ["bachelor".data, "bsc".data, "bs".data, "b.tech".data,
               "btech".data, "engineering".data, "technology".data,
               "computer science".data].any
          (fun k => strContains eduText k) then 15
      else 10
    let institution : ℚ :=
      if ["institute".data, "university".data, "college".data,
          "technology".data, "engineering".data, "iit".data, "nit".data,
          "bits".data, "iiit".data].any
          (fun k => strContains eduText k) then 10
      else 5
    min (base + degree + institution) 100

/-- Occurrence of the word `w` in `text` with regex word boundaries on
both sides, starting with previous-character wordness `prevWord`
(implements `re.search(r'(?i)\bw\b', text)` for an all-letter word `w`,
both sides already lowercased). -/
def wordOccurs (w : List Char) : Bool → List Char → Bool
  | _, [] => false
  | prevWord, c :: rest =>
    (!prevWord && listPrefixOf w (c :: rest) &&
      (match (c :: rest).drop w.length with
       | [] => true
       | d :: _ => !isWordChar d)) ||
    wordOccurs w (isWordChar c) rest

/-- `ATSScorer.score_format`: section-header presence, bullet glyphs
and length bands, over the raw resume text. -/
def score_format (resume : List Char) : ℚ :=
  let lr := lowerStr resume
  let sectionPts : ℚ :=
    (if wordOccurs "experience".data false lr then 20 else 0) +
    (if wordOccurs "education".data false lr then 20 else 0) +
    (if wordOccurs "skills".data false lr then 20 else 0)
  let bulletPts : ℚ :=
    if resume.contains '•' || resume.contains '-' || resume.contains '*'
    then 20 else 0
  let n := resume.length
  let lengthPts : ℚ :=
    if 500 ≤ n ∧ n ≤ 3000 then 20
    else if (300 ≤ n ∧ n < 500) ∨ (3000 < n ∧ n ≤ 5000) then 10
    else 0
  min (sectionPts + bulletPts + lengthPts) 100

/-!
## Aggregation (`ATSScorer.score_resume`) and the app-level final score
-/

/-- The extracted data `ATSScorer.score_resume` works from.  `matched`
and `required` are `len(matched)` and `len(required_skills)` of
`score_skills` (in the Python code `find_matching_skills` partitions the
required list, so `missing_count = required - matched`); the remaining
fields are the outputs of the extractors applied to the resume text and
the job description. -/
structure ResumeData where
  matched : ℕ
  required : ℕ
  hasEmail : Bool
  hasPhone : Bool
  hasLinkedin : Bool
  hasGithub : Bool
  expTexts : List (List Char)
  jobSkills : List (List Char)
  projTexts : List (List Char)
  eduTexts : List (List Char)
  resume : List Char
deriving Repr

/-- The scoring fields of the dict returned by `ATSScorer.score_resume`. -/
structure ScoreResult where
  overall_score : ℚ
  skills_score : ℚ
  header_score : ℚ
  experience_score : ℚ
  projects_score : ℚ
  education_score : ℚ
  format_score : ℚ
  matched_count : ℕ
  missing_count : ℕ
deriving Repr

/-- The default section weights of `ATSScorer.__init__`. -/
def skills_weight : ℚ := 40/100
def header_weight : ℚ := 10/100
def experience_weight : ℚ := 15/100
def projects_weight : ℚ := 5/100
def education_weight : ℚ := 20/100
def format_weight : ℚ := 10/100

/-- The weighted sum computed inside `ATSScorer.score_resume` before the
holistic-excellence bonus. -/
def weightedOverall (d : ResumeData) : ℚ :=
  score_skills d.matched d.required * skills_weight +
  score_header d.hasEmail d.hasPhone d.hasLinkedin d.hasGithub * header_weight +
  score_experience d.expTexts d.jobSkills * experience_weight +
  score_projects d.projTexts * projects_weight +
  score_education d.eduTexts * education_weight +
  score_format d.resume * format_weight

/-- The guard of the holistic-excellence bonus in `ATSScorer.score_resume`. -/
def holisticCond (d : ResumeData) : Prop :=
  (if d.matched + (d.required - d.matched) > 0 then
    (d.matched : ℚ) / ((d.matched + (d.required - d.matched) : ℕ) : ℚ)
   else 0) ≥ 70/100 ∧
  score_skills d.matched d.required ≥ 80 ∧
  d.expTexts.length ≥ 2 ∧
  d.projTexts.length ≥ 2 ∧
  score_experience d.expTexts d.jobSkills ≥ 65 ∧
  score_projects d.projTexts ≥ 60

instance (d : ResumeData) : Decidable (holisticCond d) := by
  unfold holisticCond; infer_instance

/-- `ATSScorer.score_resume`: the six section scores, the weighted sum,
and the conditional +8 holistic bonus capped at 100. -/
def score_resume (d : ResumeData) : ScoreResult :=
  let overall := weightedOverall d
  let overall2 := if holisticCond d then min (overall + 8) 100 else overall
  { overall_score := overall2
    skills_score := score_skills d.matched d.required
    header_score := score_header d.hasEmail d.hasPhone d.hasLinkedin d.hasGithub
    experience_score := score_experience d.expTexts d.jobSkills
    projects_score := score_projects d.projTexts
    education_score := score_education d.eduTexts
    format_score := score_format d.resume
    matched_count := d.matched
    missing_count := d.required - d.matched }

/-- `classify_resume` in `app.py`: classification label and badge colour
from an overall score. -/
def classify_resume (overall_score : ℚ) : List Char × List Char :=
  if overall_score < 50 then ("No Fit".data, "danger".data)
  else if overall_score < 70 then ("Potential Fit".data, "warning".data)
  else ("Good Fit".data, "success".data)

/-- Python `int()` on a rational: truncation toward zero. -/
def pyInt (q : ℚ) : ℤ :=
  if 0 ≤ q then ⌊q⌋ else -⌊-q⌋

/-- The final overall score the app displays (`analyze_resume` in
`app.py`): the integer truncation of the unweighted average of the six
section scores taken from the result of `score_resume`. -/
def appOverallScore (r : ScoreResult) : ℤ :=
  let section_scores := [r.education_score, r.experience_score,
    r.format_score, r.header_score, r.projects_score, r.skills_score]
  if section_scores.isEmpty then 0
  else pyInt (section_scores.sum / (section_scores.length : ℚ))

/-- The classification the app computes (`analyze_resume` in `app.py`),
applied to the recomputed integer overall score. -/
def appClassification (r : ScoreResult) : List Char × List Char :=
  classify_resume ((appOverallScore r : ℤ) : ℚ)

/-!
## Score bounds (claim C1)
-/

lemma skillsBand_nonneg {r : ℚ} (h : 0 ≤ r) : 0 ≤ skillsBand r := by
  unfold skillsBand
  split_ifs with h1 h2 h3 <;> nlinarith

lemma score_skills_bounds (m n : ℕ) :
    0 ≤ score_skills m n ∧ score_skills m n ≤ 100 := by
  unfold score_skills
  split_ifs with h
  · constructor
    · exact le_min (by norm_num) (by norm_num)
    · exact min_le_right _ _
  · refine ⟨le_min (skillsBand_nonneg ?_) (by norm_num), min_le_right _ _⟩
    positivity

lemma score_header_bounds (e p l g : Bool) :
    0 ≤ score_header e p l g ∧ score_header e p l g ≤ 100 := by
  unfold score_header
  refine ⟨le_min ?_ (by norm_num), min_le_right _ _⟩
  split_ifs <;> norm_num

lemma expKeywordScore_bounds (t : List Char) (js : List (List Char)) :
    0 ≤ expKeywordScore t js ∧ expKeywordScore t js ≤ 25 := by
  simp only [expKeywordScore]
  have hp : (0:ℚ) ≤ ((js.filter fun s => strContains t (lowerStr s)).length : ℚ) /
      (js.length : ℚ) := by positivity
  split_ifs <;> constructor <;>
    first
      | (refine le_min ?_ (by norm_num); nlinarith)
      | exact min_le_right _ _
      | norm_num

lemma expQualityScore_bounds (ts : List (List Char)) :
    0 ≤ expQualityScore ts ∧ expQualityScore ts ≤ 15 := by
  simp only [expQualityScore]
  split_ifs <;> norm_num

lemma score_experience_bounds (ts js : List (List Char)) :
    0 ≤ score_experience ts js ∧ score_experience ts js ≤ 100 := by
  unfold score_experience
  obtain ⟨k0, _⟩ := expKeywordScore_bounds (lowerStr (joinSpace ts)) js
  obtain ⟨q0, _⟩ := expQualityScore_bounds ts
  split_ifs with h h1
  · norm_num
  · exact ⟨le_min (by linarith) (by norm_num), min_le_right _ _⟩
  · exact ⟨le_min (by linarith) (by norm_num), min_le_right _ _⟩

lemma score_projects_bounds (ts : List (List Char)) :
    0 ≤ score_projects ts ∧ score_projects ts ≤ 100 := by
  simp only [score_projects]
  split_ifs <;> constructor <;>
    first
      | norm_num
      | exact min_le_right _ _
      | exact le_min (by norm_num) (by norm_num)

lemma score_education_bounds (ts : List (List Char)) :
    0 ≤ score_education ts ∧ score_education ts ≤ 100 := by
  simp only [score_education]
  split_ifs <;> constructor <;>
    first
      | norm_num
      | exact min_le_right _ _
      | exact le_min (by norm_num) (by norm_num)

lemma score_format_bounds (r : List Char) :
    0 ≤ score_format r ∧ score_format r ≤ 100 := by
  simp only [score_format]
  split_ifs <;> constructor <;>
    first
      | norm_num
      | exact min_le_right _ _
      | exact le_min (by norm_num) (by norm_num)

lemma weightedOverall_bounds (d : ResumeData) :
    0 ≤ weightedOverall d ∧ weightedOverall d ≤ 100 := by
  obtain ⟨s0, s1⟩ := score_skills_bounds d.matched d.required
  obtain ⟨h0, h1⟩ := score_header_bounds d.hasEmail d.hasPhone d.hasLinkedin d.hasGithub
  obtain ⟨e0, e1⟩ := score_experience_bounds d.expTexts d.jobSkills
  obtain ⟨p0, p1⟩ := score_projects_bounds d.projTexts
  obtain ⟨d0, d1⟩ := score_education_bounds d.eduTexts
  obtain ⟨f0, f1⟩ := score_format_bounds d.resume
  unfold weightedOverall skills_weight header_weight experience_weight
    projects_weight education_weight format_weight
  constructor <;> nlinarith

/-- C1. Every section score produced by the `ATSScorer` scoring
functions lies in `[0,100]` (each function clamps its own result via its
final `min (· , 100)` and the non-negativity of its rule table), and the
overall score returned by `score_resume` also lies in `[0,100]`. -/
theorem C1_score_bounds (d : ResumeData) :
    (0 ≤ (score_resume d).skills_score ∧ (score_resume d).skills_score ≤ 100) ∧
    (0 ≤ (score_resume d).header_score ∧ (score_resume d).header_score ≤ 100) ∧
    (0 ≤ (score_resume d).experience_score ∧ (score_resume d).experience_score ≤ 100) ∧
    (0 ≤ (score_resume d).projects_score ∧ (score_resume d).projects_score ≤ 100) ∧
    (0 ≤ (score_resume d).education_score ∧ (score_resume d).education_score ≤ 100) ∧
    (0 ≤ (score_resume d).format_score ∧ (score_resume d).format_score ≤ 100) ∧
    (0 ≤ (score_resume d).overall_score ∧ (score_resume d).overall_score ≤ 100) := by
  obtain ⟨w0, w1⟩ := weightedOverall_bounds d
  refine ⟨score_skills_bounds _ _, score_header_bounds _ _ _ _,
    score_experience_bounds _ _, score_projects_bounds _,
    score_education_bounds _, score_format_bounds _, ?_⟩
  show 0 ≤ (if holisticCond d then min (weightedOverall d + 8) 100
      else weightedOverall d) ∧
    (if holisticCond d then min (weightedOverall d + 8) 100
      else weightedOverall d) ≤ 100
  split_ifs with h
  · exact ⟨le_min (by linarith) (by norm_num), min_le_right _ _⟩
  · exact ⟨w0, w1⟩

/-!
## Classification thresholds (claim C3) and the displayed score (claim C2)
-/

/-- C3. `classify_resume` maps `s ≥ 70` to "Good Fit", `50 ≤ s < 70` to
"Potential Fit" and `s < 50` to "No Fit"; in particular exactly `70.0`
is "Good Fit", `69.999` is "Potential Fit", exactly `50.0` is
"Potential Fit" and `49.999` is "No Fit". -/
theorem C3_classification_thresholds :
    (∀ s : ℚ, 70 ≤ s → (classify_resume s).1 = "Good Fit".data) ∧
    (∀ s : ℚ, 50 ≤ s → s < 70 → (classify_resume s).1 = "Potential Fit".data) ∧
    (∀ s : ℚ, s < 50 → (classify_resume s).1 = "No Fit".data) ∧
    (classify_resume 70).1 = "Good Fit".data ∧
    (classify_resume (69999/1000)).1 = "Potential Fit".data ∧
    (classify_resume 50).1 = "Potential Fit".data ∧
    (classify_resume (49999/1000)).1 = "No Fit".data := by
  refine ⟨fun s h => ?_, fun s h h' => ?_, fun s h => ?_, ?_, ?_, ?_, ?_⟩
  · simp only [classify_resume]
    rw [if_neg (by linarith), if_neg (by linarith)]
  · simp only [classify_resume]
    rw [if_neg (by linarith), if_pos h']
  · simp only [classify_resume]
    rw [if_pos h]
  · simp only [classify_resume]
    norm_num
  · simp only [classify_resume]
    norm_num
  · simp only [classify_resume]
    norm_num
  · simp only [classify_resume]
    norm_num

/-- Closed instance of `C3_classification_thresholds`: the boundary
value 70 is classified "Good Fit". -/
theorem C3_classification_thresholds_witness :
    (classify_resume 70).1 = "Good Fit".data :=
  C3_classification_thresholds.1 70 (by norm_num)

/-- C2. The app's displayed overall score is the truncation toward zero
of the unweighted mean of the six section scores, the classification is
computed from that integer, and neither depends on the `overall_score`
field produced by `score_resume` (the weighted sum with its holistic
bonus): replacing that field by any value leaves both unchanged. -/
theorem C2_displayed_score (r : ScoreResult) (q : ℚ) :
    appOverallScore r =
      pyInt ((r.education_score + r.experience_score + r.format_score +
        r.header_score + r.projects_score + r.skills_score) / 6) ∧
    appClassification r =
      classify_resume ((appOverallScore r : ℤ) : ℚ) ∧
    appOverallScore { r with overall_score := q } = appOverallScore r ∧
    appClassification { r with overall_score := q } = appClassification r := by
  refine ⟨?_, rfl, rfl, rfl⟩
  simp only [appOverallScore, List.isEmpty_cons, List.sum_cons, List.sum_nil,
    List.length_cons, List.length_nil]
  norm_num
  congr 1
  ring

/-!
## The skills-score curve (claims C4 and C5)
-/

/-- The skills score exactly as the specification words it: a
piecewise-linear function of `matchRatio = matched / required` with four
bands, the top band capped at 100. -/
def specSkillsScore (m n : ℕ) : ℚ :=
  let r : ℚ := (m : ℚ) / (n : ℚ)
  if r < 40/100 then r * 125
  else if r < 60/100 then 50 + (r - 40/100) * 100
  else if r < 80/100 then 70 + (r - 60/100) * 75
  else min (85 + (r - 80/100) * 75) 100

/-- C4. For a non-empty required-skills list the code's skills score is
the specification's four-band piecewise-linear function of the match
ratio. -/
theorem C4_skills_piecewise (m n : ℕ) (hn : 0 < n) (hm : m ≤ n) :
    score_skills m n = specSkillsScore m n := by
  have hnq : (0:ℚ) < (n : ℚ) := by exact_mod_cast hn
  have hr0 : (0:ℚ) ≤ (m:ℚ) / (n:ℚ) := by positivity
  have hr1 : (m:ℚ) / (n:ℚ) ≤ 1 := by
    rw [div_le_one hnq]; exact_mod_cast hm
  simp only [score_skills, specSkillsScore, skillsBand, hn.ne', if_false]
  split_ifs <;>
    first
      | rfl
      | linarith
      | (rw [min_eq_left (by linarith)])

/-- Closed instance of `C4_skills_piecewise` at `matched = 2`,
`required = 5` (the 40% band boundary, both sides evaluate to 50). -/
theorem C4_skills_piecewise_witness :
    score_skills 2 5 = specSkillsScore 2 5 :=
  C4_skills_piecewise 2 5 (by norm_num) (by norm_num)

lemma skillsBand_mono {a b : ℚ} (ha : 0 ≤ a) (hab : a ≤ b) :
    skillsBand a ≤ skillsBand b := by
  unfold skillsBand
  split_ifs <;> linarith

/-- C5. Holding the required-skills list fixed, one more matched skill
never decreases the skills score. -/
theorem C5_skills_monotone (m n : ℕ) :
    score_skills m n ≤ score_skills (m + 1) n := by
  unfold score_skills
  split_ifs with h
  · exact le_rfl
  · refine min_le_min (skillsBand_mono (by positivity) ?_) le_rfl
    have hnq : (0:ℚ) < (n : ℚ) := by
      exact_mod_cast Nat.pos_of_ne_zero h
    rw [div_le_div_iff_of_pos_right hnq]
    push_cast
    linarith

/-!
## The holistic-excellence bonus (claim C6)
-/

/-- The `skill_match_rate` computed inside `ATSScorer.score_resume`:
`matched_count / (matched_count + missing_count)` with a zero guard. -/
def skillMatchRate (d : ResumeData) : ℚ :=
  if d.matched + (d.required - d.matched) > 0 then
    (d.matched : ℚ) / ((d.matched + (d.required - d.matched) : ℕ) : ℚ)
  else 0

/-- C6. The flat 8-point bonus capped at 100 is applied exactly when
all six secondary thresholds hold simultaneously: skill-match rate
≥ 0.70, skills score ≥ 80, at least 2 experience entries, at least 2
project entries, experience score ≥ 65 and projects score ≥ 60;
otherwise the overall score is the plain weighted sum. -/
theorem C6_holistic_bonus (d : ResumeData) :
    ((skillMatchRate d ≥ 70/100 ∧
      score_skills d.matched d.required ≥ 80 ∧
      2 ≤ d.expTexts.length ∧ 2 ≤ d.projTexts.length ∧
      score_experience d.expTexts d.jobSkills ≥ 65 ∧
      score_projects d.projTexts ≥ 60) →
        (score_resume d).overall_score = min (weightedOverall d + 8) 100) ∧
    (¬ (skillMatchRate d ≥ 70/100 ∧
      score_skills d.matched d.required ≥ 80 ∧
      2 ≤ d.expTexts.length ∧ 2 ≤ d.projTexts.length ∧
      score_experience d.expTexts d.jobSkills ≥ 65 ∧
      score_projects d.projTexts ≥ 60) →
        (score_resume d).overall_score = weightedOverall d) := by
  have hcond : holisticCond d ↔
      (skillMatchRate d ≥ 70/100 ∧
       score_skills d.matched d.required ≥ 80 ∧
       2 ≤ d.expTexts.length ∧ 2 ≤ d.projTexts.length ∧
       score_experience d.expTexts d.jobSkills ≥ 65 ∧
       score_projects d.projTexts ≥ 60) := by
    unfold holisticCond skillMatchRate
    rfl
  constructor <;> intro h
  · show (if holisticCond d then min (weightedOverall d + 8) 100
      else weightedOverall d) = min (weightedOverall d + 8) 100
    rw [if_pos (hcond.mpr h)]
  · show (if holisticCond d then min (weightedOverall d + 8) 100
      else weightedOverall d) = weightedOverall d
    rw [if_neg (fun hc => h (hcond.mp hc))]

/-- Closed instance of `C6_holistic_bonus`: a resume with a 4/5 skill
match, two em-dash experience entries and two parenthesised projects
clears every secondary threshold, so the bonus branch is taken. -/
theorem C6_holistic_bonus_witness :
    (score_resume ⟨4, 5, true, true, true, true,
        ["Acme Corp — Developer".data, "Beta Ltd — Engineer".data], [],
        ["Chat App (Flask, Redis)".data, "Site (HTML)".data], [], []⟩).overall_score =
      min (weightedOverall ⟨4, 5, true, true, true, true,
        ["Acme Corp — Developer".data, "Beta Ltd — Engineer".data], [],
        ["Chat App (Flask, Redis)".data, "Site (HTML)".data], [], []⟩ + 8) 100 :=
  (C6_holistic_bonus _).1 (by
    refine ⟨?_, ?_, ?_, ?_, ?_, ?_⟩
    · norm_num [skillMatchRate]
    · norm_num [score_skills, skillsBand]
    · norm_num
    · norm_num
    · have hq : expQualityScore
          ["Acme Corp — Developer".data, "Beta Ltd — Engineer".data] = 15 := by
        rfl
      norm_num [score_experience, expKeywordScore, hq]
    · have ht : (tech_indicators.filter (fun t => strContains
          (lowerStr (joinSpace ["Chat App (Flask, Redis)".data,
            "Site (HTML)".data])) t)).length = 1 := by rfl
      norm_num [score_projects, ht])

/-!
## File-type gate of `analyze_resume` (claim C7)
-/

/-- `ALLOWED_EXTENSIONS` in `app.py`. -/
def ALLOWED_EXTENSIONS : List (List Char) := ["pdf".data, "docx".data]

/-- `filename.rsplit('.', 1)[1]` for a filename containing a dot: the
segment after the last dot. -/
def afterLastDot (filename : List Char) : List Char :=
  (filename.reverse.takeWhile (fun c => c ≠ '.')).reverse

/-- `allowed_file` in `app.py`: the filename contains a dot and the
lowercased segment after the last dot is an allowed extension. -/
def allowed_file (filename : List Char) : Bool :=
  filename.contains '.' &&
    ALLOWED_EXTENSIONS.contains (lowerStr (afterLastDot filename))

/-- Python `str.endswith`. -/
def endsWith (s suf : List Char) : Bool :=
  listPrefixOf suf.reverse s.reverse

/-- The two extraction branches of `extract_text_from_file`. -/
inductive ExtractBranch
  | pdf
  | docx
deriving Repr, DecidableEq

/-- The dispatch of `extract_text_from_file` in `app.py`: lowercase the
filename, take the PDF branch on suffix `.pdf`, the DOCX branch on
suffix `.docx`, otherwise raise `ValueError("Unsupported file format")`. -/
def extract_text_branch (filename : List Char) : Except (List Char) ExtractBranch :=
  let fn := lowerStr filename
  if endsWith fn ".pdf".data then .ok .pdf
  else if endsWith fn ".docx".data then .ok .docx
  else .error "Unsupported file format".data

/-- Outcome of the file-handling stage of `analyze_resume`. -/
inductive AnalyzeStage
  | errorInvalidType
  | errorUnsupportedFormat
  | extracting (b : ExtractBranch)
deriving Repr, DecidableEq

/-- The file gate of `analyze_resume` in `app.py`: reject with the
"Invalid file type" 400 response before any extraction, parsing or
scoring when `allowed_file` fails; otherwise hand the file to
`extract_text_from_file`. -/
def analyze_file_gate (filename : List Char) : AnalyzeStage :=
  if allowed_file filename then
    match extract_text_branch filename with
    | .ok b => .extracting b
    | .error _ => .errorUnsupportedFormat
  else .errorInvalidType

/-- The declared extension of a filename: the lowercased segment after
the last dot, or `none` when the filename has no dot. -/
def declaredExt (filename : List Char) : Option (List Char) :=
  if filename.contains '.' then some (lowerStr (afterLastDot filename))
  else none

lemma listPrefixOf_append_same (a c d : List Char) :
    listPrefixOf (a ++ c) (a ++ d) = listPrefixOf c d := by
  induction a with
  | nil => rfl
  | cons x xs ih => simp [listPrefixOf, ih]

lemma listPrefixOf_refl (a : List Char) : listPrefixOf a a = true := by
  induction a with
  | nil => rfl
  | cons x xs ih => simp [listPrefixOf, ih]

lemma dropWhile_ne_dot {r : List Char} (h : '.' ∈ r) :
    ∃ t, r.dropWhile (fun c => c ≠ '.') = '.' :: t := by
  induction r with
  | nil => cases h
  | cons x xs ih =>
    by_cases hx : x = '.'
    · subst hx
      exact ⟨xs, by simp [List.dropWhile]⟩
    · rcases List.mem_cons.mp h with h1 | h2
      · exact absurd h1.symm hx
      · obtain ⟨t, ht⟩ := ih h2
        refine ⟨t, ?_⟩
        simpa [List.dropWhile, hx] using ht

/-- If the filename contains a dot and the lowercased last-dot segment
is `e` (which itself contains no dot), then the lowercased filename
ends with `'.' :: e`. -/
lemma ext_endsWith {fn e : List Char} (hdot : fn.contains '.')
    (hext : lowerStr (afterLastDot fn) = e) :
    endsWith (lowerStr fn) ('.' :: e) = true := by
  have hmem : '.' ∈ fn.reverse := by
    rw [List.mem_reverse]
    simpa using hdot
  set r := fn.reverse with hr
  have htake : lowerStr (r.takeWhile (fun c => c ≠ '.')) = e.reverse := by
    have : (lowerStr (r.takeWhile (fun c => c ≠ '.'))).reverse = e := by
      simpa [afterLastDot, lowerStr, List.map_reverse, hr] using hext
    rw [← this, List.reverse_reverse]
  obtain ⟨t, ht⟩ := dropWhile_ne_dot hmem
  have hsplit : r = r.takeWhile (fun c => c ≠ '.') ++ '.' :: t := by
    conv_lhs => rw [← List.takeWhile_append_dropWhile
      (p := fun c => c ≠ '.') (l := r), ht]
  show listPrefixOf ('.' :: e).reverse (lowerStr fn).reverse = true
  have hrev : (lowerStr fn).reverse = lowerStr r := by
    simp [lowerStr, hr, List.map_reverse]
  rw [hrev, hsplit]
  have : lowerStr (r.takeWhile (fun c => c ≠ '.') ++ '.' :: t) =
      e.reverse ++ '.' :: lowerStr t := by
    simp only [lowerStr, List.map_append, List.map_cons]
    rw [← lowerStr, htake]
    rfl
  rw [this]
  have hform : ('.' :: e).reverse = e.reverse ++ ['.'] := by simp
  rw [hform]
  have := listPrefixOf_append_same e.reverse ['.'] ('.' :: lowerStr t)
  rw [this]
  simp [listPrefixOf]

lemma listPrefixOf_cons_true {a : Char} {as l : List Char}
    (h : listPrefixOf (a :: as) l = true) :
    ∃ t, l = a :: t ∧ listPrefixOf as t = true := by
  cases l with
  | nil => simp [listPrefixOf] at h
  | cons b bs =>
    rw [listPrefixOf, Bool.and_eq_true] at h
    exact ⟨bs, by rw [eq_of_beq h.1], h.2⟩

/-- C7. Files whose declared extension is neither `pdf` nor `docx` are
rejected by the gate before any extraction, parsing or scoring; files
with extension `pdf` (resp. `docx`) reach the corresponding extraction
branch. -/
theorem C7_file_gate (fn : List Char) :
    ((declaredExt fn ≠ some "pdf".data ∧ declaredExt fn ≠ some "docx".data) →
      analyze_file_gate fn = .errorInvalidType) ∧
    (declaredExt fn = some "pdf".data →
      analyze_file_gate fn = .extracting .pdf) ∧
    (declaredExt fn = some "docx".data →
      analyze_file_gate fn = .extracting .docx) := by
  refine ⟨fun ⟨h1, h2⟩ => ?_, fun h => ?_, fun h => ?_⟩
  · unfold analyze_file_gate
    rw [if_neg]
    intro hall
    unfold allowed_file ALLOWED_EXTENSIONS at hall
    rw [Bool.and_eq_true] at hall
    obtain ⟨hd, hc⟩ := hall
    unfold declaredExt at h1 h2
    rw [if_pos hd] at h1 h2
    simp only [List.contains_cons, List.contains_nil] at hc
    rcases Bool.or_eq_true _ _ |>.mp hc with hx | hx
    · exact h1 (by simpa using congrArg some (eq_of_beq hx))
    · rcases Bool.or_eq_true _ _ |>.mp hx with hy | hy
      · exact h2 (by simpa using congrArg some (eq_of_beq hy))
      · simp at hy
  · unfold declaredExt at h
    by_cases hd : fn.contains '.'
    · rw [if_pos hd] at h
      have hext := Option.some.inj h
      have hend := ext_endsWith hd hext
      unfold analyze_file_gate
      rw [if_pos]
      · unfold extract_text_branch
        rw [show ('.':: "pdf".data) = ".pdf".data from rfl] at hend
        simp only [hend, if_true]
      · unfold allowed_file ALLOWED_EXTENSIONS
        rw [hd, hext]
        rfl
    · rw [if_neg hd] at h
      exact absurd h (by simp)
  · unfold declaredExt at h
    by_cases hd : fn.contains '.'
    · rw [if_pos hd] at h
      have hext := Option.some.inj h
      have hend := ext_endsWith hd hext
      have hnotpdf : endsWith (lowerStr fn) ".pdf".data = false := by
        unfold endsWith at hend ⊢
        by_contra hcon
        rw [Bool.not_eq_false] at hcon
        have hend' : listPrefixOf ('x' :: "cod.".data)
            (lowerStr fn).reverse = true := by
          have hrw : ('.' :: "docx".data).reverse = 'x' :: "cod.".data := by rfl
          rwa [hrw] at hend
        have hcon' : listPrefixOf ('f' :: "dp.".data)
            (lowerStr fn).reverse = true := by
          have hrw : (".pdf".data).reverse = 'f' :: "dp.".data := by rfl
          rwa [hrw] at hcon
        obtain ⟨t1, ht1, _⟩ := listPrefixOf_cons_true hend'
        obtain ⟨t2, ht2, _⟩ := listPrefixOf_cons_true hcon'
        rw [ht1] at ht2
        exact absurd (List.cons.inj ht2).1 (by decide)
      unfold analyze_file_gate
      rw [if_pos]
      · unfold extract_text_branch
        rw [show ('.':: "docx".data) = ".docx".data from rfl] at hend
        simp only [hnotpdf, hend]
        rfl
      · unfold allowed_file ALLOWED_EXTENSIONS
        rw [hd, hext]
        rfl
    · rw [if_neg hd] at h
      exact absurd h (by simp)

/-- Closed instance of `C7_file_gate`: `resume.exe` is rejected before
parsing. -/
theorem C7_file_gate_witness :
    analyze_file_gate "resume.exe".data = .errorInvalidType :=
  (C7_file_gate "resume.exe".data).1 (by refine ⟨?_, ?_⟩ <;> decide)

/-!
## `ResumeExtractor.extract_experience` (claim C8)

Embedding of the experience-section search
(`re.search(r'(?i)\\n(EXPERIENCE|...)\\s*\\n(.*?)(?=\\n(?:SKILLS|...)\\s*\\n|$)', text, re.DOTALL)`)
and of the line-by-line entry parser that follows it.
-/

/-- The section-header alternatives of the experience regex, in
alternation order, lowercased (the regex carries `(?i)`). -/
def expSectionKeywords : List (List Char) :=
  ["experience".data, "work experience".data, "employment".data,
   "professional experience".data]

/-- The next-section alternatives of the lookahead that terminates the
experience body, lowercased. -/
def expStopKeywords : List (List Char) :=
  ["skills".data, "education".data, "projects".data, "certifications".data,
   "achievements".data, "awards".data, "references".data]

/-- First keyword of `kws` that is a case-insensitive prefix of `s`,
returning the rest of `s` after it (regex alternation; the alternatives
used here are pairwise prefix-incompatible, so order never matters). -/
def firstMatchingKeyword (kws : List (List Char)) (s : List Char) :
    Option (List Char) :=
  match kws with
  | [] => none
  | k :: rest =>
    if listPrefixOf k (lowerStr s) then some (s.drop k.length)
    else firstMatchingKeyword rest s

/-- Resolve the greedy `\s*\n` after a section keyword: the maximal
whitespace run must contain a newline, and the match resumes after the
last newline of that run. -/
def dropAfterLastNl (u : List Char) : Option (List Char) :=
  let w := u.takeWhile isPySpace
  if w.contains '\n' then
    some (u.drop (w.length - (w.reverse.takeWhile (fun c => c ≠ '\n')).length))
  else none

/-- Match the experience-section header (`\n(EXPERIENCE|...)\s*\n`) at
the current position, returning the suffix where the body group starts. -/
def matchExpHeaderAt (s : List Char) : Option (List Char) :=
  match s with
  | '\n' :: rest =>
    match firstMatchingKeyword expSectionKeywords rest with
    | some u => dropAfterLastNl u
    | none => none
  | _ => none

/-- `re.search` scan for the experience-section header: leftmost match
wins; returns the suffix where the body group starts. -/
def searchExpSection : List Char → Option (List Char)
  | [] => none
  | c :: rest =>
    match matchExpHeaderAt (c :: rest) with
    | some bodySuffix => some bodySuffix
    | none => searchExpSection rest

/-- The terminating condition of the lazy body group: either the
lookahead `\n(?:SKILLS|...)\s*\n` matches here, or `$` does (end of
string, or just before a trailing final newline). -/
def expStopHere (v : List Char) : Bool :=
  (match v with
   | '\n' :: rest =>
     match firstMatchingKeyword expStopKeywords rest with
     | some u => (u.takeWhile isPySpace).contains '\n'
     | none => false
   | _ => false) ||
  v.isEmpty || v == ['\n']

/-- The lazy `(.*?)` body group: the shortest prefix whose end position
satisfies `expStopHere`. -/
def takeBody : List Char → List Char
  | [] => []
  | c :: rest => if expStopHere (c :: rest) then [] else c :: takeBody rest

/-- Python `text.split('\n')`. -/
def splitOnNl : List Char → List (List Char)
  | [] => [[]]
  | c :: rest =>
    if c = '\n' then [] :: splitOnNl rest
    else
      match splitOnNl rest with
      | [] => [[c]]
      | l :: ls => (c :: l) :: ls

/-- The achievement/bullet keywords that make `extract_experience` skip
a line entirely. -/
def expSkipKeywords : List (List Char) :=
  ["achieved".data, "reduced".data, "enhanced".data, "delivered".data,
   "built".data, "developed".data, "implemented".data, "designed".data,
   "created".data, "managed".data, "led".data, "improved".data,
   "completed".data, "strengthened".data, "optimizing".data,
   "engineering".data, "frameworks".data, "ensuring".data]

/-- Last character test (Python `line.endswith(c)` for a single char). -/
def lastIs (l : List Char) (c : Char) : Bool :=
  match l.getLast? with
  | some d => d == c
  | none => false

/-- `re.match(r'^\s*[•\-\*·]\s*', line)` on an already-stripped line:
the first character is a bullet glyph. -/
def isBulletStart (l : List Char) : Bool :=
  match l with
  | c :: _ => c = '•' || c = '-' || c = '*' || c = '·'
  | [] => false

/-- The skip condition of the experience line loop: bullet lines,
achievement-verb lines, lines ending in a dash, and short lines. -/
def expSkipLine (l : List Char) : Bool :=
  isBulletStart l ||
  expSkipKeywords.any (fun k => strContains (lowerStr l) k) ||
  lastIs l '—' || lastIs l '-' || l.length < 15

/-- Class `[A-Za-z\s&\.,]` of the company part of
`company_title_pattern`. -/
def isClassB (c : Char) : Bool :=
  isAsciiAlpha c || isPySpace c || c = '&' || c = '.' || c = ','

/-- The dash separators `[—–-]` of `company_title_pattern`. -/
def isCompSep (c : Char) : Bool :=
  c = '—' || c = '–' || c = '-'

/-- `re.match(company_title_pattern, line)`: group 1 is
`[A-Za-z][A-Za-z\s&\.,]+` (with an optional legal-entity suffix, which
never extends the match because its characters already belong to the
class), then `\s*[—–-]\s*`, then group 2 `[A-Za-z][^\n]+`.  Since the
class excludes the separators, the separator of a successful match is
necessarily the first non-class character.  Returns the stripped
`(company, title)` groups. -/
def matchCompanyTitle (line : List Char) : Option (List Char × List Char) :=
  match line with
  | [] => none
  | c0 :: rest =>
    if isAsciiAlpha c0 then
      let bRun := rest.takeWhile isClassB
      if bRun.length ≥ 1 then
        match rest.drop bRun.length with
        | sep :: afterSep =>
          if isCompSep sep then
            match afterSep.drop (afterSep.takeWhile isPySpace).length with
            | t0 :: trest =>
              if isAsciiAlpha t0 && trest.length ≥ 1 then
                some (pyStrip (c0 :: bRun), pyStrip (t0 :: trest))
              else none
            | [] => none
          else none
        | [] => none
      else none
    else none

/-- The city keywords accepted on the line following a company-title
header. -/
def expCityKeywords : List (List Char) :=
  ["delhi".data, "remote".data, "mumbai".data, "bangalore".data,
   "hyderabad".data, "chennai".data, "pune".data]

/-- The verbs that disqualify a location/date line. -/
def expBadWords : List (List Char) :=
  ["achieved".data, "reduced".data, "enhanced".data, "developed".data]

/-- `re.search(r'\d{2}/\d{4}', line)`: two digits, a slash and four
digits occur somewhere in the line. -/
def hasDate : List Char → Bool
  | [] => false
  | c :: rest =>
    (match c :: rest with
     | a :: b :: '/' :: p :: q :: r :: t :: _ =>
       isAsciiDigit a && isAsciiDigit b && isAsciiDigit p &&
       isAsciiDigit q && isAsciiDigit r && isAsciiDigit t
     | _ => false) ||
    hasDate rest

/-- The location/date condition for the single line allowed to follow a
header. -/
def expLocDateLine (l : List Char) : Bool :=
  (expCityKeywords.any (fun k => strContains (lowerStr l) k) || hasDate l) &&
  !(expBadWords.any (fun k => strContains (lowerStr l) k))

/-- The line loop of `extract_experience`: accumulates the current
entry's lines and the finished entries (each joined with newlines). -/
def expLoop : List (List Char) → List (List Char) → List (List Char) →
    List (List Char)
  | [], current, entries =>
    if current.isEmpty then entries else entries ++ [joinNl current]
  | line :: rest, current, entries =>
    let l := pyStrip line
    if l.isEmpty then expLoop rest current entries
    else if expSkipLine l then expLoop rest current entries
    else
      match matchCompanyTitle l with
      | some (company, title) =>
        expLoop rest [company ++ " — ".data ++ title]
          (if current.isEmpty then entries else entries ++ [joinNl current])
      | none =>
        if current.length = 1 && expLocDateLine l then
          expLoop rest (current ++ [l]) entries
        else expLoop rest current entries

/-- `ResumeExtractor.extract_experience`: search for the section; when
absent return the empty list, otherwise parse the body into at most 5
entries and keep the stripped entries longer than 20 characters (the
function returns the list of `'text'` fields). -/
def extract_experience (text : List Char) : List (List Char) :=
  match searchExpSection text with
  | none => []
  | some bodySuffix =>
    let entries := expLoop (splitOnNl (pyStrip (takeBody bodySuffix))) [] []
    ((entries.take 5).filter (fun e => (pyStrip e).length > 20)).map pyStrip

/-- C8 counterexample. On a resume with no recognizable experience
section, the extractor does return the empty list, but the experience
scorer on that empty list returns exactly 0 — not a nonzero baseline as
the claim states. -/
theorem C8_counterexample_zero_baseline :
    extract_experience "hello world, plain text with no sections".data = [] ∧
    score_experience
      (extract_experience "hello world, plain text with no sections".data)
      ["python".data] = 0 ∧
    ¬ score_experience
      (extract_experience "hello world, plain text with no sections".data)
      ["python".data] ≠ 0 := by
  refine ⟨rfl, rfl, fun h => h rfl⟩

/-- C8 (amended). When no experience section is recognized
(`searchExpSection` finds no header), `extract_experience` returns the
empty list (it is a total function: no exception), and
`score_experience` on that empty list returns the defined baseline 0 —
a defined, non-negative value, not a crash. -/
theorem C8_empty_section_baseline (text : List Char)
    (js : List (List Char)) (h : searchExpSection text = none) :
    extract_experience text = [] ∧
    score_experience (extract_experience text) js = 0 ∧
    0 ≤ score_experience (extract_experience text) js := by
  have he : extract_experience text = [] := by
    unfold extract_experience
    rw [h]
  rw [he]
  exact ⟨rfl, rfl, le_refl 0⟩

/-- Closed instance of `C8_empty_section_baseline` at a concrete
sectionless resume. -/
theorem C8_empty_section_baseline_witness :
    extract_experience "just a plain note".data = [] ∧
    score_experience (extract_experience "just a plain note".data)
      ["sql".data] = 0 ∧
    0 ≤ score_experience (extract_experience "just a plain note".data)
      ["sql".data] :=
  C8_empty_section_baseline "just a plain note".data ["sql".data] rfl

/-!
## `ATSScorer.extract_keywords` (claim C9)

Embedding of `re.findall(r'\\b[a-zA-Z+#]{2,}\\b', text.lower())` followed
by the stopword filter, first-seen deduplication and the 30-keyword cap.
-/

/-- The character class `[a-zA-Z+#]` of the keyword token pattern. -/
def isClassC (c : Char) : Bool :=
  isAsciiAlpha c || c = '+' || c = '#'

/-- Word boundary after a character `a` when the following text is
`next`: the wordness changes (end of string counts as non-word). -/
def boundaryOk (a : Char) (next : List Char) : Bool :=
  match next with
  | [] => isWordChar a
  | b :: _ => isWordChar a != isWordChar b

/-- Backtracking for the trailing `\b` after the greedy `[a-zA-Z+#]{2,}`:
given the reversed class run and the text after it, return the largest
token length `k ≥ 2` whose end is a word boundary, with the token's last
character. -/
def tokEndAux : List Char → List Char → Option (ℕ × Char)
  | [], _ => none
  | a :: restRev, next =>
    if restRev.length + 1 ≥ 2 && boundaryOk a next then
      some (restRev.length + 1, a)
    else tokEndAux restRev (a :: next)

/-- One findall scan step with explicit fuel (the fuel is only a
structural-recursion device; `s.length` is always enough because every
step consumes at least one character).  `prevWord` is the wordness of
the character before the current position. -/
def findallTokensFuel : ℕ → Bool → List Char → List (List Char)
  | 0, _, _ => []
  | _ + 1, _, [] => []
  | fuel + 1, prevWord, c :: rest =>
    let s := c :: rest
    if isClassC c && (prevWord != isWordChar c) then
      let run := s.takeWhile isClassC
      match tokEndAux run.reverse (s.drop run.length) with
      | some (k, a) =>
        run.take k :: findallTokensFuel fuel (isWordChar a) (s.drop k)
      | none => findallTokensFuel fuel (isWordChar c) rest
    else findallTokensFuel fuel (isWordChar c) rest

/-- `re.findall(r'\\b[a-zA-Z+#]{2,}\\b', s)`: all non-overlapping
matches, leftmost first. -/
def findallTokens (s : List Char) : List (List Char) :=
  findallTokensFuel s.length false s

/-- The `common_words` stopword set of `ATSScorer.extract_keywords`. -/
def common_words : List (List Char) :=
  ["the".data, "a".data, "an".data, "and".data, "or".data, "but".data,
   "in".data, "on".data, "at".data, "to".data, "for".data, "of".data,
   "with".data, "by".data, "from".data, "as".data, "is".data, "was".data,
   "are".data, "were".data, "be".data, "have".data, "has".data, "had".data,
   "do".data, "does".data, "did".data, "will".data, "would".data,
   "should".data, "can".data, "could".data, "may".data, "might".data,
   "must".data, "shall".data]

/-- The `seen`-set deduplication loop of `extract_keywords`: keep the
first occurrence of each keyword, preserving order. -/
def dedupSeen (seen : List (List Char)) : List (List Char) → List (List Char)
  | [] => []
  | k :: rest =>
    if k ∈ seen then dedupSeen seen rest
    else k :: dedupSeen (k :: seen) rest

/-- `ATSScorer.extract_keywords`: tokenize the lowercased text, drop
stopwords, deduplicate keeping first-seen order, keep the first 30. -/
def extract_keywords (text : List Char) : List (List Char) :=
  let words := findallTokens (lowerStr text)
  let keywords := words.filter (fun w => decide (w ∉ common_words))
  (dedupSeen [] keywords).take 30

lemma tokEndAux_le {revRun next : List Char} {k : ℕ} {a : Char}
    (h : tokEndAux revRun next = some (k, a)) : 2 ≤ k ∧ k ≤ revRun.length := by
  induction revRun generalizing next with
  | nil => simp [tokEndAux] at h
  | cons b rest ih =>
    rw [tokEndAux] at h
    split_ifs at h with hc
    · obtain ⟨h1, h2⟩ := Prod.mk.injEq .. ▸ Option.some.inj h
      simp only [Bool.and_eq_true, decide_eq_true_eq] at hc
      subst h1
      exact ⟨hc.1, le_refl _⟩
    · obtain ⟨hk2, hkle⟩ := ih h
      exact ⟨hk2, hkle.trans (Nat.le_succ _)⟩

lemma findallTokensFuel_props {fuel : ℕ} {pw : Bool} {s w : List Char}
    (h : w ∈ findallTokensFuel fuel pw s) :
    2 ≤ w.length ∧ ∀ c ∈ w, isClassC c = true := by
  induction fuel generalizing pw s with
  | zero => simp [findallTokensFuel] at h
  | succ n ih =>
    match s with
    | [] => simp [findallTokensFuel] at h
    | c :: rest =>
      simp only [findallTokensFuel] at h
      split_ifs at h with hc
      · rcases hE : tokEndAux ((c :: rest).takeWhile isClassC).reverse
            ((c :: rest).drop ((c :: rest).takeWhile isClassC).length) with _ | ⟨k, a⟩
        · rw [hE] at h
          exact ih h
        · rw [hE] at h
          rcases List.mem_cons.mp h with h1 | h2
          · subst h1
            obtain ⟨hk2, hkle⟩ := tokEndAux_le hE
            rw [List.length_reverse] at hkle
            refine ⟨?_, ?_⟩
            · rw [List.length_take]
              omega
            · intro x hx
              exact List.mem_takeWhile_imp (List.take_subset _ _ hx)
          · exact ih h2
      · exact ih h

lemma dedupSeen_sublist (seen : List (List Char)) (l : List (List Char)) :
    (dedupSeen seen l).Sublist l := by
  induction l generalizing seen with
  | nil => simp [dedupSeen]
  | cons k rest ih =>
    rw [dedupSeen]
    split_ifs with hk
    · exact (ih seen).trans (List.sublist_cons_self k rest)
    · exact (ih (k :: seen)).cons₂ k

lemma mem_dedupSeen_not_seen {seen l : List (List Char)} {w : List Char}
    (h : w ∈ dedupSeen seen l) : w ∉ seen := by
  induction l generalizing seen with
  | nil => simp [dedupSeen] at h
  | cons k rest ih =>
    rw [dedupSeen] at h
    split_ifs at h with hk
    · exact ih h
    · rcases List.mem_cons.mp h with h1 | h2
      · subst h1
        exact hk
      · intro hw
        exact ih h2 (List.mem_cons_of_mem k hw)

lemma dedupSeen_nodup (seen l : List (List Char)) :
    (dedupSeen seen l).Nodup := by
  induction l generalizing seen with
  | nil => simp [dedupSeen]
  | cons k rest ih =>
    rw [dedupSeen]
    split_ifs with hk
    · exact ih seen
    · refine List.nodup_cons.mpr ⟨fun hmem => ?_, ih (k :: seen)⟩
      exact mem_dedupSeen_not_seen hmem (List.mem_cons_self k seen)

/-- C9 counterexample. `extract_keywords` keeps tokens of length 2: on
the text "go" it returns the keyword "go", whose length is below the 3
the claim requires. -/
theorem C9_counterexample_length_two_token :
    extract_keywords "go".data = ["go".data] ∧ ("go".data).length < 3 :=
  ⟨rfl, by norm_num⟩

/-- C9 (amended). `extract_keywords` returns at most 30 keywords
without duplicates, each a token of letters, `+` or `#` (the class
`[a-zA-Z+#]` of the pattern) of length at least **2** that is not a
stopword, and the keyword list is a subsequence of the token stream of
the lowercased text, i.e. keywords keep first-occurrence order. -/
theorem C9_keywords_properties (text : List Char) :
    (extract_keywords text).length ≤ 30 ∧
    (extract_keywords text).Nodup ∧
    (extract_keywords text).Sublist (findallTokens (lowerStr text)) ∧
    ∀ w ∈ extract_keywords text,
      2 ≤ w.length ∧ (∀ c ∈ w, isClassC c = true) ∧ w ∉ common_words := by
  simp only [extract_keywords]
  refine ⟨List.length_take_le _ _, ?_, ?_, ?_⟩
  · exact (List.take_sublist _ _).nodup (dedupSeen_nodup _ _)
  · exact ((List.take_sublist _ _).trans (dedupSeen_sublist _ _)).trans
      (List.filter_sublist _)
  · intro w hw
    have hfil : w ∈ (findallTokens (lowerStr text)).filter
        (fun w => decide (w ∉ common_words)) :=
      (dedupSeen_sublist [] _).subset (List.take_subset _ _ hw)
    obtain ⟨hmem, hdec⟩ := List.mem_filter.mp hfil
    obtain ⟨h2, hcls⟩ := findallTokensFuel_props hmem
    exact ⟨h2, hcls, of_decide_eq_true hdec⟩

/-- Closed instance of `C9_keywords_properties`: the keyword "go" of
the text "go" satisfies the per-keyword properties. -/
theorem C9_keywords_properties_witness :
    2 ≤ ("go".data).length ∧ (∀ c ∈ "go".data, isClassC c = true) ∧
    "go".data ∉ common_words :=
  (C9_keywords_properties "go".data).2.2.2 "go".data (by decide)

/-!
## `ContactExtractor.extract_contact` (claim C10)

Embedding of the four first-match regex extractions: email and phone on
the original text, LinkedIn and GitHub on the lowercased text.
-/

/-- The local-part class `[A-Za-z0-9._%+-]` of the email pattern. -/
def isEmailLocal (c : Char) : Bool :=
  isAsciiAlpha c || isAsciiDigit c || c = '.' || c = '_' || c = '%' ||
  c = '+' || c = '-'

/-- The domain class `[A-Za-z0-9.-]` of the email pattern. -/
def isEmailDomain (c : Char) : Bool :=
  isAsciiAlpha c || isAsciiDigit c || c = '.' || c = '-'

/-- The TLD class `[A-Z|a-z]` of the email pattern (the literal `|`
inside the character class is part of the class). -/
def isEmailTld (c : Char) : Bool :=
  isAsciiAlpha c || c = '|'

/-- Ascending indices of the dots of a list, used to enumerate the
backtracking choices of the `\.` between domain and TLD. -/
def dotIdxsAsc : List Char → ℕ → List ℕ
  | [], _ => []
  | c :: rest, i =>
    if c = '.' then i :: dotIdxsAsc rest (i + 1)
    else dotIdxsAsc rest (i + 1)

/-- Try the `\.[A-Z|a-z]{2,}\b` part with the dot at index `k` of the
domain suffix `u`: the TLD is the largest `t ≥ 2` class-run prefix
ending at a word boundary. -/
def tryTld (u : List Char) (k : ℕ) : Option (List Char) :=
  let tail := u.drop (k + 1)
  let tRun := tail.takeWhile isEmailTld
  match tokEndAux tRun.reverse (tail.drop tRun.length) with
  | some (t, _) => some (u.take k ++ '.' :: tail.take t)
  | none => none

/-- Backtracking over the dot choices, preferring the rightmost dot of
the greedy `[A-Za-z0-9.-]+` run (`ks` is passed in descending order;
the dot index must be ≥ 1 so that the domain part is non-empty). -/
def tryDots (u : List Char) : List ℕ → Option (List Char)
  | [] => none
  | k :: ks =>
    if k ≥ 1 then
      match tryTld u k with
      | some d => some d
      | none => tryDots u ks
    else tryDots u ks

/-- Match the email pattern at the current position (`prevWord` is the
wordness of the preceding character, for the leading `\b`).  Because
`@` is not in the local-part class, the `@` of a successful match is
necessarily the first non-class character; because `.` is in the domain
class, the `\.` is found by backtracking from the rightmost dot of the
greedy domain run. -/
def matchEmailAt (prevWord : Bool) (s : List Char) : Option (List Char) :=
  match s with
  | [] => none
  | c :: _ =>
    if isEmailLocal c && (prevWord != isWordChar c) then
      let lRun := s.takeWhile isEmailLocal
      match s.drop lRun.length with
      | '@' :: u =>
        let dRun := u.takeWhile isEmailDomain
        match tryDots u (dotIdxsAsc dRun 0).reverse with
        | some d => some (lRun ++ '@' :: d)
        | none => none
      | _ => none
    else none

/-- `re.search` scan for the email pattern, leftmost match first. -/
def searchEmail : Bool → List Char → Option (List Char)
  | _, [] => none
  | pw, c :: rest =>
    match matchEmailAt pw (c :: rest) with
    | some m => some m
    | none => searchEmail (isWordChar c) rest

/-- First match of the email pattern
`\b[A-Za-z0-9._%+-]+@[A-Za-z0-9.-]+\.[A-Z|a-z]{2,}\b`. -/
def findEmail (text : List Char) : Option (List Char) :=
  searchEmail false text

/-- The class `[\d\s().\-]` of the phone pattern body. -/
def isPhoneChar (c : Char) : Bool :=
  isAsciiDigit c || isPySpace c || c = '(' || c = ')' || c = '.' || c = '-'

/-- Backtracking for the final `\d` after the greedy `[\d\s().\-]{6,}`:
given the reversed class run, return (reversed) the longest prefix of
the run that ends in a digit preceded by at least 6 class characters. -/
def phoneEndAux : List Char → Option (List Char)
  | [] => none
  | a :: restRev =>
    if isAsciiDigit a && restRev.length ≥ 6 then some (a :: restRev)
    else phoneEndAux restRev

/-- The `[\d\s().\-]{6,}\d` part of the phone pattern, on the suffix
after the leading digit. -/
def phoneTail (u : List Char) : Option (List Char) :=
  (phoneEndAux (u.takeWhile isPhoneChar).reverse).map List.reverse

/-- Match the phone pattern `\+?\d[\d\s().\-]{6,}\d` at the current
position. -/
def matchPhoneAt (s : List Char) : Option (List Char) :=
  match s with
  | '+' :: d :: u =>
    if isAsciiDigit d then (phoneTail u).map (fun t => '+' :: d :: t)
    else none
  | d :: u =>
    if isAsciiDigit d then (phoneTail u).map (fun t => d :: t)
    else none
  | [] => none

/-- `re.search` scan for the phone pattern (no word boundaries, so no
context is needed). -/
def findPhone : List Char → Option (List Char)
  | [] => none
  | c :: rest =>
    match matchPhoneAt (c :: rest) with
    | some m => some m
    | none => findPhone rest

/-- The class `[\w-]` of the LinkedIn/GitHub handle. -/
def isHandleChar (c : Char) : Bool :=
  isWordChar c || c = '-'

/-- Match `lit` followed by a non-empty `[\w-]+` run at the current
position. -/
def matchHandleAt (lit : List Char) (s : List Char) : Option (List Char) :=
  if listPrefixOf lit s then
    let run := (s.drop lit.length).takeWhile isHandleChar
    if run.length ≥ 1 then some (lit ++ run) else none
  else none

/-- `re.search` scan for a literal-plus-handle pattern. -/
def searchHandle (lit : List Char) : List Char → Option (List Char)
  | [] => none
  | c :: rest =>
    match matchHandleAt lit (c :: rest) with
    | some m => some m
    | none => searchHandle lit rest

/-- First match of `linkedin\.com/in/[\w-]+`. -/
def findLinkedin (text : List Char) : Option (List Char) :=
  searchHandle "linkedin.com/in/".data text

/-- First match of `github\.com/[\w-]+`. -/
def findGithub (text : List Char) : Option (List Char) :=
  searchHandle "github.com/".data text

/-- The record returned by `ContactExtractor.extract_contact`: exactly
the four fields `email`, `phone`, `linkedin`, `github` (this extractor
has no `name` or `location` field — those exist only in the separate
`ats_engine_new.py` extractor). -/
structure Contact where
  email : Option (List Char)
  phone : Option (List Char)
  linkedin : Option (List Char)
  github : Option (List Char)
deriving Repr, DecidableEq

/-- `ContactExtractor.extract_contact`: email and phone from the
original text (the phone stripped), LinkedIn and GitHub from the
lowercased text; every field `None` when its pattern has no match. -/
def extract_contact (text : List Char) : Contact :=
  { email := findEmail text
    phone := (findPhone text).map pyStrip
    linkedin := findLinkedin (lowerStr text)
    github := findGithub (lowerStr text) }

lemma digit_not_space {a : Char} (h : isAsciiDigit a = true) :
    isPySpace a = false := by
  by_contra hs
  rw [Bool.not_eq_false] at hs
  simp only [isPySpace, Bool.or_eq_true, decide_eq_true_eq] at hs
  simp only [isAsciiDigit, Bool.and_eq_true, decide_eq_true_eq] at h
  have hlt : a < '0' := by
    rcases hs with ((((h1 | h1) | h1) | h1) | h1) | h1 <;> subst h1 <;> decide
  exact absurd h.1 (not_le.mpr hlt)

lemma pyStrip_eq_self {m : List Char}
    (h1 : ∀ c t, m = c :: t → isPySpace c = false)
    (h2 : ∀ a, m.reverse.head? = some a → isPySpace a = false) :
    pyStrip m = m := by
  cases m with
  | nil => rfl
  | cons c t =>
    have hc := h1 c t rfl
    unfold pyStrip
    rw [List.dropWhile_cons, hc]
    simp only [Bool.false_eq_true, if_false]
    cases hrev : (c :: t).reverse with
    | nil => exact absurd hrev (by simp)
    | cons y ys =>
      have hy := h2 y (by rw [hrev]; rfl)
      rw [List.dropWhile_cons, hy]
      simp only [Bool.false_eq_true, if_false]
      rw [← hrev, List.reverse_reverse]

lemma phoneEndAux_shape {revRun rev : List Char}
    (h : phoneEndAux revRun = some rev) :
    ∃ a restRev, rev = a :: restRev ∧ isAsciiDigit a = true := by
  induction revRun with
  | nil => simp [phoneEndAux] at h
  | cons b rest ih =>
    rw [phoneEndAux] at h
    split_ifs at h with hc
    · simp only [Bool.and_eq_true, decide_eq_true_eq] at hc
      exact ⟨b, rest, (Option.some.inj h).symm, hc.1⟩
    · exact ih h

lemma phoneTail_shape {u t : List Char} (h : phoneTail u = some t) :
    ∃ a restRev, t = (a :: restRev).reverse ∧ isAsciiDigit a = true := by
  unfold phoneTail at h
  rcases hE : phoneEndAux (u.takeWhile isPhoneChar).reverse with _ | rev
  · rw [hE] at h
    simp at h
  · rw [hE] at h
    obtain ⟨a, restRev, hrev, hd⟩ := phoneEndAux_shape hE
    refine ⟨a, restRev, ?_, hd⟩
    rw [← Option.some.inj h, hrev]

lemma matchPhoneAt_strip {s m : List Char} (h : matchPhoneAt s = some m) :
    pyStrip m = m := by
  unfold matchPhoneAt at h
  split at h
  · rename_i d u
    split_ifs at h with hd
    rcases hT : phoneTail u with _ | t
    · rw [hT] at h
      simp at h
    · rw [hT] at h
      obtain ⟨a, restRev, ht, ha⟩ := phoneTail_shape hT
      have hm : m = '+' :: d :: t := (Option.some.inj h).symm
      apply pyStrip_eq_self
      · intro c0 t0 hct
        rw [hm] at hct
        rw [← (List.cons.inj hct).1]
        decide
      · intro b hb
        rw [hm, ht] at hb
        have ha2 : ('+' :: d :: (a :: restRev).reverse).reverse.head? =
            some a := by simp
        rw [ha2] at hb
        exact (Option.some.inj hb) ▸ digit_not_space ha
  · rename_i d u hne1
    split_ifs at h with hd
    rcases hT : phoneTail u with _ | t
    · rw [hT] at h
      simp at h
    · rw [hT] at h
      obtain ⟨a, restRev, ht, ha⟩ := phoneTail_shape hT
      have hm : m = d :: t := (Option.some.inj h).symm
      apply pyStrip_eq_self
      · intro c0 t0 hct
        rw [hm] at hct
        rw [← (List.cons.inj hct).1]
        exact digit_not_space hd
      · intro b hb
        rw [hm, ht] at hb
        have ha2 : (d :: (a :: restRev).reverse).reverse.head? =
            some a := by simp
        rw [ha2] at hb
        exact (Option.some.inj hb) ▸ digit_not_space ha
  · exact absurd h (by simp)

lemma findPhone_strip {text m : List Char} (h : findPhone text = some m) :
    pyStrip m = m := by
  induction text with
  | nil => simp [findPhone] at h
  | cons c rest ih =>
    rw [findPhone] at h
    rcases hM : matchPhoneAt (c :: rest) with _ | m'
    · rw [hM] at h
      exact ih h
    · rw [hM] at h
      exact (Option.some.inj h) ▸ matchPhoneAt_strip hM

/-- C10. `extract_contact` returns the record with exactly the four
fields email, phone, linkedin, github (the `Contact` structure); each
field is the first match of its regex — `none` when there is no match —
with email and phone taken from the original text and linkedin/github
from the lowercased text.  In particular the `.strip()` the code applies
to the phone is the identity, because a phone match always starts with
`+` or a digit and ends with a digit. -/
theorem C10_contact_extraction (text : List Char) :
    (extract_contact text).email = findEmail text ∧
    (extract_contact text).phone = findPhone text ∧
    (extract_contact text).linkedin = findLinkedin (lowerStr text) ∧
    (extract_contact text).github = findGithub (lowerStr text) := by
  refine ⟨rfl, ?_, rfl, rfl⟩
  show (findPhone text).map pyStrip = findPhone text
  rcases hF : findPhone text with _ | m
  · rfl
  · rw [Option.map_some']
    rw [findPhone_strip hF]

end MLATS
